import Mathlib

/-!
Shallow embedding of the content-matching core of the AI-Transcriber
repository (files `src/vector_store.py` and `src/chunking_utils.py`,
plus the chunking defaults of `config.py`).

Modelling conventions:
* Python `str` is modelled as `List Char`; `str.lower`, `str.strip`,
  `str.split()` and the regex `\b\w+\b` are modelled on characters, with
  `Char.isAlphanum` standing for the word-character class (an ASCII model
  of Python's Unicode-aware semantics; the claims under study do not
  depend on non-ASCII behaviour).
* Python floats (timestamps, scores, thresholds, delays) are modelled as
  rationals `ℚ`; machine integers as `ℤ`/`ℕ`.
* The external collaborators (OpenAI embeddings, Pinecone index) are
  modelled as explicit environment records holding deterministic response
  functions, mirroring the "fixed sequence of embedding and index
  responses" reading of the code's network calls.
* `while` loops whose termination is in question are modelled with an
  explicit fuel parameter returning `Option`; `none` means the fuel was
  exhausted while the loop was still running.
-/

/-- Word characters of the regex `\w` (ASCII model): letters, digits, `_`. -/
def isWordChar (c : Char) : Bool := c.isAlphanum || c == '_'

/-- Maximal runs of characters satisfying `p`, accumulator-passing form.
`acc` holds the current run, reversed. -/
def runsByAux (p : Char → Bool) : List Char → List Char → List (List Char)
  | [], acc => if acc.isEmpty then [] else [acc.reverse]
  | c :: cs, acc =>
    if p c then runsByAux p cs (c :: acc)
    else if acc.isEmpty then runsByAux p cs []
    else acc.reverse :: runsByAux p cs []

/-- Maximal runs of characters satisfying `p` (used for `re.findall(r'\b\w+\b', s)`
and for `str.split()`). -/
def runsBy (p : Char → Bool) (s : List Char) : List (List Char) := runsByAux p s []

/-- Python `str.lower()` (ASCII model). -/
def pyLower (s : List Char) : List Char := s.map Char.toLower

/-- Python `str.strip()`: remove leading and trailing whitespace. -/
def pyStrip (s : List Char) : List Char :=
  ((s.dropWhile Char.isWhitespace).reverse.dropWhile Char.isWhitespace).reverse

/-- Python `str.split()` with no argument: maximal runs of non-whitespace. -/
def pySplitWs (s : List Char) : List (List Char) :=
  runsBy (fun c => !c.isWhitespace) s

/-- `re.findall(r'\b\w+\b', s)`: the maximal runs of word characters of `s`. -/
def wordRuns (s : List Char) : List (List Char) := runsBy isWordChar s

/-- The word set used by `_check_content_overlap`
(`vector_store.py:511-518`): lowercase, strip, extract words, as a set. -/
def wordSet (s : List Char) : Finset (List Char) :=
  (wordRuns (pyStrip (pyLower s))).toFinset

/-- The length-adaptive minimum overlap requirement of
`_check_content_overlap` (`vector_store.py:527-534`); the source calls this
`min_overlap_ratio`. -/
def min_overlap_req (secondary_length : Nat) : ℚ :=
  if secondary_length < 100 then 7/10
  else if secondary_length > 500 then 3/10
  else 1/2

/-- `PineconeVectorStore._check_content_overlap` (`vector_store.py:500-538`):
lexical-overlap gate between a query-chunk text and a stored-record text.
The source computes `overlap_ratio = |intersection| / |secondary_words|`
and accepts iff `overlap_ratio >= min_overlap_ratio`. -/
def check_content_overlap (secondary_text primary_text : List Char) : Bool :=
  let secondary_words := wordSet secondary_text
  let primary_words := wordSet primary_text
  if secondary_words.card = 0 then false
  else
    let overlapFrac : ℚ := (secondary_words ∩ primary_words).card / secondary_words.card
    decide (min_overlap_req secondary_text.length ≤ overlapFrac)

/-- The dynamic threshold computation shared by `search_content_matches`
(`vector_store.py:178-188`) and `search_content_matches_optimized`
(`vector_store.py:319-329`).  In the source it is computed from
`len(secondary_text)`, the length of the whole stripped candidate text. -/
def adjusted_threshold (secondary_length : Nat) (threshold : ℚ) : ℚ :=
  if secondary_length < 100 then 1/2
  else if secondary_length > 500 then 3/10
  else threshold

/-- An embedding vector (`List float` in the source). -/
abbrev Emb := List ℚ

/-- Metadata of a stored Pinecone record, as read back by the matcher
(`metadata.get("text"/"start_time"/"end_time"/"segment_index", default)`). -/
structure RecordMeta where
  text : List Char
  start_time : ℚ
  end_time : ℚ
  segment_index : ℤ
deriving DecidableEq

/-- A Pinecone query match: a `score` plus stored metadata. -/
structure RecordMatch where
  score : ℚ
  metadata : RecordMeta
deriving DecidableEq

/-- A match dictionary as appended to `all_matches`
(`vector_store.py:245-251`). -/
structure MatchRec where
  start_time : ℚ
  end_time : ℚ
  text : List Char
  confidence : ℚ
  segment_index : ℤ
deriving DecidableEq

/-- The match dictionary built from an accepted record
(`vector_store.py:245-251`): times and text from the record's metadata,
confidence from the semantic score. -/
def matchOfRecord (m : RecordMatch) : MatchRec :=
  { start_time := m.metadata.start_time
    end_time := m.metadata.end_time
    text := m.metadata.text
    confidence := m.score
    segment_index := m.metadata.segment_index }

/-- The accumulating inner loop of `_merge_overlapping_matches`
(`vector_store.py:572-597`): `current` is the open interval; a candidate
merges into it iff `start_time < current.end_time + 0.01`. -/
def merge_loop (current : MatchRec) : List MatchRec → List MatchRec
  | [] => [current]
  | m :: rest =>
    if m.start_time < current.end_time + 1/100 then
      merge_loop
        { current with
            end_time := max current.end_time m.end_time
            confidence := max current.confidence m.confidence } rest
    else
      current :: merge_loop m rest

/-- `PineconeVectorStore._merge_overlapping_matches`
(`vector_store.py:552-602`): sort by `start_time` (Python `sorted` is a
stable sort; modelled by insertion sort, which is stable), then fold with
`merge_loop`.  The source's parameter `matches` is a reserved word in Lean
and is called `ms` here. -/
def merge_overlapping_matches (ms : List MatchRec) : List MatchRec :=
  if ms.isEmpty then []
  else
    match List.insertionSort (fun a b => a.start_time ≤ b.start_time) ms with
    | [] => []
    | m :: rest => merge_loop m rest

/-- A Whisper segment as consumed by the chunker: `segment.get("start"/"end"/"text")`.
The key `"end"` is a reserved word in Lean and is modelled by the field `stop`. -/
structure Segment where
  start : ℚ
  stop : ℚ
  text : List Char
deriving DecidableEq

/-- The part of a transcription dictionary the matching core reads:
`transcription.get("text")` and `transcription.get("segments")`. -/
structure Transcription where
  text : List Char
  segments : List Segment
deriving DecidableEq

/-- The `chunk_type` strings `"segment"`, `"sentence"`, `"text_chunk"`. -/
inductive ChunkType where
  | segment
  | sentence
  | text_chunk
deriving DecidableEq

/-- A chunk dictionary built by `ChunkingUtils._create_chunk_metadata`
(`chunking_utils.py:215-248`).  The provenance passthrough fields
(`language`, `model_used`, `confidence`, `processing_time`) are copied
verbatim from the transcription dictionary and are omitted here; no claim
under study mentions them. -/
structure Chunk where
  text : List Char
  start_time : ℚ
  end_time : ℚ
  segment_index : Nat
  chunk_type : ChunkType
  chunk_index : Nat
deriving DecidableEq

/-- The chunking configuration dictionary.  Modelled as a structure, so the
required keys of `validate_chunking_config` are present by construction. -/
structure ChunkingConfig where
  segment_based : Bool
  max_segment_length : ℤ
  min_chunk_size : ℤ
  max_chunk_size : ℤ
  overlap_size : ℤ
deriving DecidableEq

/-- `config.CHUNKING_CONFIG` (`config.py:47-55`). -/
def defaultChunkingConfig : ChunkingConfig :=
  { segment_based := true
    max_segment_length := 500
    min_chunk_size := 50
    max_chunk_size := 1000
    overlap_size := 200 }

/-- `ChunkingUtils._split_into_sentences` (`chunking_utils.py:145-157`):
`re.split(r'[.!?]+', text)` followed by stripping and dropping blanks.
Splitting at every single terminator character and then dropping blank
pieces yields the same list as splitting at maximal terminator runs. -/
def split_into_sentences (text : List Char) : List (List Char) :=
  ((text.splitOnP (fun c => c == '.' || c == '!' || c == '?')).map pyStrip).filter
    (fun s => !s.isEmpty)

/-- The sentence loop of `ChunkingUtils._split_segment`
(`chunking_utils.py:121-141`): walk the enumerated sentences, assigning each
a sub-range of duration `len(sentence) * time_per_char` starting at the
running `current_time`. -/
def split_segment_loop (time_per_char : ℚ) (segment_index : Nat) :
    ℚ → List (Nat × List Char) → List Chunk
  | _, [] => []
  | current_time, (sentence_index, sentence) :: rest =>
    let s := pyStrip sentence
    if s.isEmpty then split_segment_loop time_per_char segment_index current_time rest
    else
      let sentence_end := current_time + (s.length : ℚ) * time_per_char
      { text := s
        start_time := current_time
        end_time := sentence_end
        segment_index := segment_index
        chunk_type := ChunkType.sentence
        chunk_index := sentence_index } ::
        split_segment_loop time_per_char segment_index sentence_end rest

/-- `ChunkingUtils._split_segment` (`chunking_utils.py:88-142`). -/
def split_segment (text : List Char) (start_time stop : ℚ) (segment_index : Nat) :
    List Chunk :=
  let sentences := split_into_sentences text
  let duration := stop - start_time
  let total_chars := text.length
  if total_chars = 0 then []
  else
    let time_per_char := duration / (total_chars : ℚ)
    split_segment_loop time_per_char segment_index start_time sentences.enum

/-- `ChunkingUtils._segment_based_chunking` (`chunking_utils.py:43-85`). -/
def segment_based_chunking (tr : Transcription) (cfg : ChunkingConfig) : List Chunk :=
  if tr.segments.isEmpty then []
  else
    tr.segments.enum.foldr
      (fun (p : Nat × Segment) acc =>
        let text := pyStrip p.2.text
        if text.isEmpty then acc
        else if (text.length : ℤ) > cfg.max_segment_length then
          split_segment text p.2.start p.2.stop p.1 ++ acc
        else
          { text := text
            start_time := p.2.start
            end_time := p.2.stop
            segment_index := p.1
            chunk_type := ChunkType.segment
            chunk_index := 0 } :: acc)
      []

/-- Python slice index clamping: `l[a:b]` with possibly negative indices. -/
def pySliceIdx (n : Nat) (i : ℤ) : Nat :=
  if i < 0 then (i + n).toNat else min i.toNat n

/-- Python list slicing `l[a:b]`. -/
def pySlice {α : Type} (l : List α) (a b : ℤ) : List α :=
  (l.take (pySliceIdx l.length b)).drop (pySliceIdx l.length a)

/-- The `while current_pos < total_words` loop of
`ChunkingUtils._text_based_chunking` (`chunking_utils.py:189-210`), with an
explicit fuel parameter; `none` means the fuel ran out while the loop was
still running.  One iteration emits `" ".join(words[current_pos:end_pos])`
as a zero-timestamped `text_chunk`, then sets
`current_pos = end_pos - overlap_size` and breaks if that reaches
`total_words`. -/
def text_based_loop (chunk_size overlap_size : ℤ) (words : List (List Char))
    (total_words : ℤ) : Nat → ℤ → Nat → Option (List Chunk)
  | 0, _, _ => none
  | fuel + 1, current_pos, chunk_index =>
    if current_pos < total_words then
      let end_pos := min (current_pos + chunk_size) total_words
      let chunk_text := List.intercalate [' '] (pySlice words current_pos end_pos)
      let c : Chunk :=
        { text := chunk_text
          start_time := 0
          end_time := 0
          segment_index := 0
          chunk_type := ChunkType.text_chunk
          chunk_index := chunk_index }
      let next_pos := end_pos - overlap_size
      if total_words ≤ next_pos then some [c]
      else (text_based_loop chunk_size overlap_size words total_words fuel
              next_pos (chunk_index + 1)).map (c :: ·)
    else some []

/-- `ChunkingUtils._text_based_chunking` (`chunking_utils.py:160-212`). -/
def text_based_chunking (fuel : Nat) (tr : Transcription) (cfg : ChunkingConfig) :
    Option (List Chunk) :=
  if tr.text.isEmpty then some []
  else
    let words := pySplitWs tr.text
    let total_words := (words.length : ℤ)
    if total_words = 0 then some []
    else text_based_loop cfg.max_chunk_size cfg.overlap_size words total_words fuel 0 0

/-- `ChunkingUtils.chunk_transcription` (`chunking_utils.py:14-40`):
segment-based chunking first, text-based fallback when it yields nothing. -/
def chunk_transcription (fuel : Nat) (tr : Transcription) (cfg : ChunkingConfig) :
    Option (List Chunk) :=
  if cfg.segment_based then
    let chunks := segment_based_chunking tr cfg
    if !chunks.isEmpty then some chunks
    else text_based_chunking fuel tr cfg
  else text_based_chunking fuel tr cfg

/-- `ChunkingUtils.validate_chunking_config` (`chunking_utils.py:251-283`).
The required-key check of the source always passes here because the
configuration is a structure whose fields are the required keys. -/
def validate_chunking_config (cfg : ChunkingConfig) : Bool × String :=
  if cfg.max_chunk_size ≤ 0 then (false, ("max_chunk_size must be positive"))
  else if cfg.min_chunk_size ≤ 0 then (false, ("min_chunk_size must be positive"))
  else if cfg.overlap_size < 0 then (false, ("overlap_size must be non-negative"))
  else if cfg.max_segment_length ≤ 0 then (false, ("max_segment_length must be positive"))
  else (true, ("Configuration is valid"))

/-- The `while current_pos < total_words` loop of
`PineconeVectorStore._split_long_segment` (`vector_store.py:787-813`):
the same window advance `current_pos = end_pos - overlap_size` with the same
break condition as `text_based_loop`, but each emitted chunk carries
timestamps distributed by `words_per_second`. -/
def split_long_loop (chunk_size overlap_size : ℤ) (words : List (List Char))
    (total_words : ℤ) (start_time words_per_second : ℚ) (segment_index : Nat) :
    Nat → ℤ → Nat → Option (List Chunk)
  | 0, _, _ => none
  | fuel + 1, current_pos, chunk_index =>
    if current_pos < total_words then
      let end_pos := min (current_pos + chunk_size) total_words
      let chunk_text := List.intercalate [' '] (pySlice words current_pos end_pos)
      let c : Chunk :=
        { text := chunk_text
          start_time := start_time + (current_pos : ℚ) / words_per_second
          end_time := start_time + (end_pos : ℚ) / words_per_second
          segment_index := segment_index
          chunk_type := ChunkType.text_chunk
          chunk_index := chunk_index }
      let next_pos := end_pos - overlap_size
      if total_words ≤ next_pos then some [c]
      else (split_long_loop chunk_size overlap_size words total_words start_time
              words_per_second segment_index fuel next_pos (chunk_index + 1)).map (c :: ·)
    else some []

/-- `PineconeVectorStore._split_long_segment` (`vector_store.py:755-815`);
`chunk_size` and `overlap_size` are read from `config.CHUNKING_CONFIG` in the
source and are passed explicitly here. -/
def split_long_segment (fuel : Nat) (text : List Char) (start_time end_time : ℚ)
    (segment_index : Nat) (chunk_size overlap_size : ℤ) : Option (List Chunk) :=
  let words := pySplitWs text
  let total_words := (words.length : ℤ)
  let duration := end_time - start_time
  let words_per_second := if 0 < duration then (total_words : ℚ) / duration else 1
  split_long_loop chunk_size overlap_size words total_words start_time
    words_per_second segment_index fuel 0 0

/-- Python truthiness of an embedding value (`if not embedding: ...`):
falsy when absent (`None`) or an empty vector. -/
def embTruthy : Option Emb → Bool
  | none => false
  | some e => !e.isEmpty

/-- The environment of a comparison: configuration state and the
deterministic responses of the external collaborators.
`configValid` models `validate_configuration()`; `indexExists` models
`index_name in client.list_indexes().names()`; `indexSet` models
`self.index is not None` at the parallel-path guard; `embBatch` models
`get_embeddings_batch`; `query` models `index.query(vector, top_k=10)`. -/
structure SearchEnv where
  configValid : Bool
  indexExists : Bool
  indexSet : Bool
  embBatch : List (List Char) → List (Option Emb)
  query : Emb → List RecordMatch

/-- The result dictionary of a comparison.  Failure dictionaries in the
source carry only `success`, `error`, `matches`, `confidence`; the remaining
fields are modelled with the fixed defaults `false`/`0` there.  The
`search_text` and `processing_mode` keys are omitted; no claim mentions
them. -/
structure SearchResult where
  success : Bool
  error : Option String
  matchList : List MatchRec
  confidence : ℚ
  found : Bool
  total_matches : Nat
  adjThreshold : ℚ
deriving DecidableEq

/-- The failure dictionary `{"success": False, "error": msg, "matches": [],
"confidence": 0.0}`. -/
def failure_result (msg : String) : SearchResult :=
  { success := false
    error := some msg
    matchList := []
    confidence := 0
    found := false
    total_matches := 0
    adjThreshold := 0 }

/-- `PineconeVectorStore._search_with_embedding` (`vector_store.py:474-498`):
empty/absent embedding or missing index yield no matches, otherwise the
top-10 query response filtered by `score >= adjusted_threshold`. -/
def search_with_embedding (env : SearchEnv) (embedding : Emb) (adjT : ℚ) :
    List RecordMatch :=
  if embedding.isEmpty then []
  else if !env.indexExists then []
  else (env.query embedding).filter (fun m => adjT ≤ m.score)

/-- The per-chunk body shared by the sequential loop
(`vector_store.py:229-255`) and the worker `process_chunk` of the optimized
path (`vector_store.py:376-401`): skip falsy embeddings, query, and keep a
record iff it also passes the lexical gate. -/
def process_chunk (env : SearchEnv) (adjT : ℚ) (chunk_text : List Char)
    (embedding : Option Emb) : List MatchRec :=
  if !embTruthy embedding then []
  else
    (search_with_embedding env (embedding.getD []) adjT).filterMap
      (fun m =>
        if check_content_overlap chunk_text m.metadata.text then
          some (matchOfRecord m)
        else none)

/-- The chunk-text extraction loop shared by both search paths
(`vector_store.py:195-201` and `335-342`): strip each chunk's text and keep
the non-empty ones. -/
def valid_chunk_texts (chunks : List Chunk) : List (List Char) :=
  chunks.filterMap (fun c =>
    let t := pyStrip c.text
    if t.isEmpty then none else some t)

/-- The accumulation of `all_matches` and `total_confidence` over the
chunk/embedding pairs, as performed by the sequential loop
(`vector_store.py:225-255`): each accepted match is appended and its
confidence added. -/
def seq_fold (env : SearchEnv) (adjT : ℚ)
    (pairs : List (List Char × Option Emb)) : List MatchRec × ℚ :=
  pairs.foldl
    (fun acc p =>
      let here := process_chunk env adjT p.1 p.2
      (acc.1 ++ here, acc.2 + (here.map MatchRec.confidence).sum))
    ([], 0)

/-- `PineconeVectorStore.search_content_matches` (`vector_store.py:141-280`),
the sequential path.  `fuel` bounds the chunker's fallback loop; `none`
models the call never returning because that loop does not terminate. -/
def search_content_matches (env : SearchEnv) (tr : Transcription)
    (threshold : ℚ) (fuel : Nat) : Option SearchResult :=
  if !env.configValid then some (failure_result ("Configuration validation failed"))
  else
    let secondary_text := pyStrip tr.text
    if secondary_text.isEmpty then
      some (failure_result ("No text found in secondary transcription"))
    else
      let adjT := adjusted_threshold secondary_text.length threshold
      match chunk_transcription fuel tr defaultChunkingConfig with
      | none => none
      | some chunks =>
        let chunk_texts := valid_chunk_texts chunks
        if chunk_texts.isEmpty then
          some (failure_result ("No valid chunk texts found"))
        else
          let batch := env.embBatch chunk_texts
          if batch.isEmpty || batch.all Option.isNone then
            some (failure_result ("Failed to generate batch embeddings"))
          else
            let acc := seq_fold env adjT (chunk_texts.zip batch)
            let merged := merge_overlapping_matches acc.1
            some
              { success := true
                error := none
                matchList := merged
                confidence := if acc.1.isEmpty then 0 else acc.2 / (acc.1.length : ℚ)
                found := decide (0 < merged.length)
                total_matches := merged.length
                adjThreshold := adjT }

/-- `PineconeVectorStore.search_content_matches_optimized`
(`vector_store.py:282-445`).  The worker-pool branch runs iff
`self.index` is set (the embedding batch is never empty at that guard);
building `chunk_args` indexes `batch_embeddings[i]` for every chunk index,
so a batch shorter than the chunk list raises IndexError, which the
enclosing `except` turns into a fallback call to the sequential path, as
does a falsy guard.  `executor.map` preserves input order, and the result
loop extends `all_matches` and adds per-chunk confidence sums in that
order. -/
def search_content_matches_optimized (env : SearchEnv) (tr : Transcription)
    (threshold : ℚ) (fuel : Nat) : Option SearchResult :=
  if !env.configValid then some (failure_result ("Configuration validation failed"))
  else
    let secondary_text := pyStrip tr.text
    if secondary_text.isEmpty then
      some (failure_result ("No text found in secondary transcription"))
    else
      let adjT := adjusted_threshold secondary_text.length threshold
      match chunk_transcription fuel tr defaultChunkingConfig with
      | none => none
      | some chunks =>
        let chunk_texts := valid_chunk_texts chunks
        if chunk_texts.isEmpty then
          some (failure_result ("No valid chunk texts found"))
        else
          let batch := env.embBatch chunk_texts
          if batch.isEmpty || batch.all Option.isNone then
            some (failure_result ("Failed to generate batch embeddings"))
          else if env.indexSet && !batch.isEmpty then
            if chunk_texts.length ≤ batch.length then
              let results := (chunk_texts.zip batch).map
                (fun p => process_chunk env adjT p.1 p.2)
              let acc := results.foldl
                (fun a r => (a.1 ++ r, a.2 + (r.map MatchRec.confidence).sum))
                ([], 0)
              let merged := merge_overlapping_matches acc.1
              some
                { success := true
                  error := none
                  matchList := merged
                  confidence := if acc.1.isEmpty then 0 else acc.2 / (acc.1.length : ℚ)
                  found := decide (0 < merged.length)
                  total_matches := merged.length
                  adjThreshold := adjT }
            else search_content_matches env tr threshold fuel
          else search_content_matches env tr threshold fuel

/-- The result of the readiness waiter, instrumented with the sleeps it
performed and the number of `fetch` polls it issued. -/
structure WaitResult where
  found : Bool
  delays : List ℚ
  fetchCalls : Nat
deriving DecidableEq

/-- The retry loop of `PineconeVectorStore._wait_for_indexing`
(`vector_store.py:614-626`): each attempt polls `fetch` once (`fetchOk`
models the whole guarded probe, with exceptions counting as failure),
returns on success, otherwise sleeps `delay` and multiplies it by 1.5. -/
def wait_loop (fetchOk : Nat → Bool) : Nat → Nat → ℚ → WaitResult
  | 0, _, _ => { found := false, delays := [], fetchCalls := 0 }
  | retries + 1, attempt, delay =>
    if fetchOk attempt then { found := true, delays := [], fetchCalls := 1 }
    else
      let r := wait_loop fetchOk retries (attempt + 1) (delay * (3/2))
      { found := r.found, delays := delay :: r.delays, fetchCalls := r.fetchCalls + 1 }

/-- `PineconeVectorStore._wait_for_indexing` (`vector_store.py:604-626`).
The signature defaults in the source are `max_retries=5, base_delay=0.5`;
`store_transcription_chunks` calls it with `max_retries=10, base_delay=1.0`. -/
def wait_for_indexing (fetchOk : Nat → Bool) (max_retries : Nat)
    (base_delay : ℚ) : WaitResult :=
  wait_loop fetchOk max_retries 0 base_delay

/-- A chunk as handed to the upsert stage of `store_transcription_chunks`:
its generated id and its text. -/
structure StoredChunk where
  id : String
  text : List Char
deriving DecidableEq

/-- The environment of a store operation.  `fetchOk id k` tells whether the
`k`-th readiness poll of `fetch(ids=[id])` observes the record; `upsertOk`
models whether the upsert calls succeed (an exception yields `False` from
the store). -/
structure StoreEnv where
  configValid : Bool
  indexExists : Bool
  embBatch : List (List Char) → List (Option Emb)
  fetchOk : String → Nat → Bool
  upsertOk : Bool

/-- The `vectors_to_upsert` ids of `store_transcription_chunks`
(`vector_store.py:662-678`): one vector per chunk whose embedding is
truthy. -/
def store_vector_ids (env : StoreEnv) (chunks : List StoredChunk) : List String :=
  (chunks.zip (env.embBatch (chunks.map StoredChunk.text))).filterMap
    (fun p => if embTruthy p.2 then some p.1.id else none)

/-- `PineconeVectorStore.store_transcription_chunks`
(`vector_store.py:628-702`) from the point where the chunk list exists
(chunk generation is passed in as `chunks`; the claims under study concern
the post-upsert behaviour).  After a successful upsert the waiter is run
with `max_retries=10, base_delay=1.0` on the first upserted id, its result
only selects a log message, and the store returns `True` regardless. -/
def store_transcription_chunks (env : StoreEnv) (chunks : List StoredChunk) : Bool :=
  if !env.configValid then false
  else if !env.indexExists then false
  else if chunks.isEmpty then false
  else
    let ids := store_vector_ids env chunks
    match ids with
    | [] => false
    | first_id :: _ =>
      if !env.upsertOk then false
      else
        let _probe := wait_for_indexing (env.fetchOk first_id) 10 1
        true

lemma merge_loop_cons (l : List MatchRec) (c : MatchRec) :
    ∃ hd tl, merge_loop c l = hd :: tl ∧ hd.start_time = c.start_time ∧
      c.end_time ≤ hd.end_time := by
  induction l generalizing c with
  | nil => exact ⟨c, [], rfl, rfl, le_refl _⟩
  | cons m rest ih =>
    by_cases h : m.start_time < c.end_time + 1/100
    · obtain ⟨hd, tl, heq, hs, he⟩ := ih
        { c with end_time := max c.end_time m.end_time
                 confidence := max c.confidence m.confidence }
      refine ⟨hd, tl, ?_, hs, ?_⟩
      · simp only [merge_loop]; rw [if_pos h]; exact heq
      · exact le_trans (le_max_left _ _) he
    · exact ⟨c, merge_loop m rest, by simp only [merge_loop]; rw [if_neg h], rfl,
        le_refl _⟩

lemma merge_loop_chain (l : List MatchRec) (c : MatchRec)
    (hc : c.start_time ≤ c.end_time)
    (hl : ∀ m ∈ l, m.start_time ≤ m.end_time) :
    (merge_loop c l).Chain'
      (fun a b => a.end_time + 1/100 ≤ b.start_time ∧ a.start_time ≤ b.start_time) := by
  induction l generalizing c with
  | nil => simp [merge_loop]
  | cons m rest ih =>
    by_cases h : m.start_time < c.end_time + 1/100
    · simp only [merge_loop, if_pos h]
      exact ih _ (le_trans hc (le_max_left _ _))
        (fun x hx => hl x (List.mem_cons_of_mem _ hx))
    · simp only [merge_loop, if_neg h]
      have hm : m.start_time ≤ m.end_time := hl m (List.mem_cons_self _ _)
      obtain ⟨hd, tl, heq, hs, _⟩ := merge_loop_cons rest m
      have hrec := ih m hm (fun x hx => hl x (List.mem_cons_of_mem _ hx))
      rw [heq] at hrec ⊢
      refine List.chain'_cons.mpr ⟨⟨?_, ?_⟩, hrec⟩
      · rw [hs]; linarith [not_lt.mp h]
      · rw [hs]; linarith [not_lt.mp h, hc]

lemma merge_loop_of_chain_gap (rest : List MatchRec) (m : MatchRec)
    (h : List.Chain' (fun a b => a.end_time + 1/100 ≤ b.start_time) (m :: rest)) :
    merge_loop m rest = m :: rest := by
  induction rest generalizing m with
  | nil => rfl
  | cons x xs ih =>
    rw [List.chain'_cons] at h
    have hx : ¬ x.start_time < m.end_time + 1/100 := not_lt.mpr h.1
    simp only [merge_loop, if_neg hx]
    rw [ih x h.2]

/-- C3: the interval merger sorts by `start_time` and folds with the
`start_time < end_time + 0.01` merge rule, taking `max` of end times and
confidences; for inputs whose intervals satisfy `start_time ≤ end_time` the
output is sorted by `start_time` and every successive interval starts at
least `0.01` after the previous one ends (so no two outputs merge further),
and on `[(0,5,0.9), (4,10,0.8), (20,25,0.6)]` it returns
`[(0,10,0.9), (20,25,0.6)]`. -/
theorem claim_C3 :
    (∀ ms : List MatchRec, (∀ m ∈ ms, m.start_time ≤ m.end_time) →
      (merge_overlapping_matches ms).Chain' (fun a b => a.start_time ≤ b.start_time) ∧
      (merge_overlapping_matches ms).Chain'
        (fun a b => a.end_time + 1/100 ≤ b.start_time)) ∧
    merge_overlapping_matches
        [⟨0, 5, [], 9/10, 0⟩, ⟨4, 10, [], 8/10, 0⟩, ⟨20, 25, [], 6/10, 0⟩] =
      [⟨0, 10, [], 9/10, 0⟩, ⟨20, 25, [], 6/10, 0⟩] := by
  constructor
  · intro ms hms
    have base : (merge_overlapping_matches ms).Chain'
        (fun a b => a.end_time + 1/100 ≤ b.start_time ∧ a.start_time ≤ b.start_time) := by
      unfold merge_overlapping_matches
      by_cases he : ms.isEmpty
      · simp [he]
      · simp only [he, Bool.false_eq_true, if_false]
        cases hsort : List.insertionSort (fun a b => a.start_time ≤ b.start_time) ms with
        | nil => simp
        | cons m rest =>
          have hmem : ∀ x ∈ m :: rest, x.start_time ≤ x.end_time := by
            intro x hx
            exact hms x ((List.perm_insertionSort _ ms).mem_iff.mp (hsort ▸ hx))
          exact merge_loop_chain rest m (hmem m (by simp))
            (fun x hx => hmem x (List.mem_cons_of_mem _ hx))
    exact ⟨base.imp (fun _ _ h => h.2), base.imp (fun _ _ h => h.1)⟩
  · norm_num [merge_overlapping_matches, List.insertionSort, List.orderedInsert,
      merge_loop, max_def]

/-- Witness for C3: the sortedness and gap postconditions hold on the
claim's own example input. -/
theorem claim_C3_witness :
    (merge_overlapping_matches
        [⟨0, 5, [], 9/10, 0⟩, ⟨4, 10, [], 8/10, 0⟩, ⟨20, 25, [], 6/10, 0⟩]).Chain'
      (fun a b => a.start_time ≤ b.start_time) ∧
    (merge_overlapping_matches
        [⟨0, 5, [], 9/10, 0⟩, ⟨4, 10, [], 8/10, 0⟩, ⟨20, 25, [], 6/10, 0⟩]).Chain'
      (fun a b => a.end_time + 1/100 ≤ b.start_time) :=
  claim_C3.1 _ (by intro m hm; fin_cases hm <;> norm_num)

/-- C8: the merger is the identity on lists that are already sorted by
`start_time` and maximal (each interval starts at least `0.01` after the
previous one ends). -/
theorem claim_C8 : ∀ ms : List MatchRec,
    ms.Chain' (fun a b => a.start_time ≤ b.start_time) →
    ms.Chain' (fun a b => a.end_time + 1/100 ≤ b.start_time) →
    merge_overlapping_matches ms = ms := by
  intro ms hsorted hgap
  unfold merge_overlapping_matches
  by_cases he : ms.isEmpty
  · simp [he, (List.isEmpty_iff.mp he).symm]
  · have hpair : ms.Pairwise (fun a b => a.start_time ≤ b.start_time) := by
      haveI : IsTrans MatchRec (fun a b => a.start_time ≤ b.start_time) :=
        ⟨fun _ _ _ hab hbc => le_trans hab hbc⟩
      exact List.chain'_iff_pairwise.mp hsorted
    have hsort_eq :
        List.insertionSort (fun a b => a.start_time ≤ b.start_time) ms = ms :=
      List.Sorted.insertionSort_eq hpair
    simp only [he, Bool.false_eq_true, if_false, hsort_eq]
    cases ms with
    | nil => rfl
    | cons m rest => exact merge_loop_of_chain_gap rest m hgap

/-- Witness for C8: a concrete already-maximal two-interval list is
returned unchanged. -/
theorem claim_C8_witness :
    merge_overlapping_matches [⟨0, 5, [], 9/10, 0⟩, ⟨6, 8, [], 1/2, 0⟩] =
      [⟨0, 5, [], 9/10, 0⟩, ⟨6, 8, [], 1/2, 0⟩] :=
  claim_C8 _ (by norm_num [List.chain'_cons])
    (by norm_num [List.chain'_cons])

lemma min_overlap_req_pos (n : Nat) : 0 < min_overlap_req n := by
  unfold min_overlap_req
  split
  · norm_num
  · split <;> norm_num

lemma mem_process_chunk {env : SearchEnv} {adjT : ℚ} {t : List Char}
    {e : Option Emb} {m : MatchRec} (hm : m ∈ process_chunk env adjT t e) :
    ∃ r, r ∈ env.query (e.getD []) ∧ adjT ≤ r.score ∧
      check_content_overlap t r.metadata.text = true ∧ m = matchOfRecord r := by
  simp only [process_chunk] at hm
  split at hm
  · exact absurd hm (List.not_mem_nil m)
  · rw [List.mem_filterMap] at hm
    obtain ⟨a, ha, hf⟩ := hm
    split at hf
    · rename_i hgate
      refine ⟨a, ?_, ?_, hgate, (Option.some_inj.mp hf).symm⟩
      · simp only [search_with_embedding] at ha
        split at ha
        · exact absurd ha (List.not_mem_nil a)
        · split at ha
          · exact absurd ha (List.not_mem_nil a)
          · exact (List.mem_filter.mp ha).1
      · simp only [search_with_embedding] at ha
        split at ha
        · exact absurd ha (List.not_mem_nil a)
        · split at ha
          · exact absurd ha (List.not_mem_nil a)
          · exact of_decide_eq_true (List.mem_filter.mp ha).2
    · exact absurd hf (Option.some_ne_none m).symm

lemma check_content_overlap_inter_ne_empty {s p : List Char}
    (h : check_content_overlap s p = true) : wordSet s ∩ wordSet p ≠ ∅ := by
  intro hint
  simp only [check_content_overlap] at h
  split at h
  · exact Bool.false_ne_true h
  · rename_i hcard
    have hle := of_decide_eq_true h
    rw [hint] at hle
    simp only [Finset.card_empty, Nat.cast_zero, zero_div] at hle
    exact absurd hle (not_le.mpr (min_overlap_req_pos s.length))

/-- C2: the lexical gate accepts iff the word-overlap fraction
`|chunk words ∩ record words| / |chunk words|` reaches the length-adaptive
minimum (0.7 below 100 chars, 0.3 above 500, 0.5 otherwise), and a queried
record produces a match candidate only by passing both the semantic-score
gate and this lexical gate. -/
theorem claim_C2 :
    (∀ s p : List Char, (wordSet s).card ≠ 0 →
      (check_content_overlap s p = true ↔
        min_overlap_req s.length ≤
          ((wordSet s ∩ wordSet p).card : ℚ) / ((wordSet s).card : ℚ))) ∧
    (∀ n : Nat, n < 100 → min_overlap_req n = 7/10) ∧
    (∀ n : Nat, 500 < n → min_overlap_req n = 3/10) ∧
    (∀ n : Nat, 100 ≤ n → n ≤ 500 → min_overlap_req n = 1/2) ∧
    (∀ (env : SearchEnv) (adjT : ℚ) (t : List Char) (e : Option Emb)
        (m : MatchRec), m ∈ process_chunk env adjT t e →
      ∃ r, r ∈ env.query (e.getD []) ∧ adjT ≤ r.score ∧
        check_content_overlap t r.metadata.text = true ∧ m = matchOfRecord r) := by
  refine ⟨?_, ?_, ?_, ?_, ?_⟩
  · intro s p hcard
    simp only [check_content_overlap]
    rw [if_neg hcard]
    exact decide_eq_true_iff
  · intro n hn; simp only [min_overlap_req]; rw [if_pos hn]
  · intro n hn
    simp only [min_overlap_req]
    rw [if_neg (by omega), if_pos (by omega)]
  · intro n hn hn'
    simp only [min_overlap_req]
    rw [if_neg (by omega), if_neg (by omega)]
  · intro env adjT t e m hm
    exact mem_process_chunk hm

/-- Witness for C2: the gate characterisation instantiated at the
single-word texts `"a"` and `"a"`. -/
theorem claim_C2_witness :
    check_content_overlap ['a'] ['a'] = true ↔
      min_overlap_req 1 ≤
        ((wordSet ['a'] ∩ wordSet ['a']).card : ℚ) / ((wordSet ['a']).card : ℚ) :=
  claim_C2.1 ['a'] ['a'] (by decide)

/-- C9: a chunk whose word set is disjoint from a record's word set
(including a chunk with an empty word set) is rejected by the lexical gate,
and no match candidate ever pairs a chunk with a record of disjoint words,
whatever the record's semantic score. -/
theorem claim_C9 :
    (∀ s p : List Char, wordSet s ∩ wordSet p = ∅ →
      check_content_overlap s p = false) ∧
    (∀ (env : SearchEnv) (adjT : ℚ) (s : List Char) (e : Option Emb)
        (m : MatchRec), m ∈ process_chunk env adjT s e →
      wordSet s ∩ wordSet m.text ≠ ∅) := by
  constructor
  · intro s p hint
    cases hg : check_content_overlap s p with
    | false => rfl
    | true => exact absurd hint (check_content_overlap_inter_ne_empty hg)
  · intro env adjT s e m hm
    obtain ⟨r, _, _, hgate, hmr⟩ := mem_process_chunk hm
    rw [hmr]
    exact check_content_overlap_inter_ne_empty hgate

/-- Witness for C9: the gate rejects the disjoint single-word texts `"a"`
and `"b"`. -/
theorem claim_C9_witness : check_content_overlap ['a'] ['b'] = false :=
  claim_C9.1 ['a'] ['b'] (by decide)

lemma wait_loop_all_fail (f : Nat → Bool) (hf : ∀ k, f k = false) :
    ∀ (n a : Nat) (d : ℚ), wait_loop f n a d =
      { found := false
        delays := (List.range n).map (fun i => d * (3/2)^i)
        fetchCalls := n } := by
  intro n
  induction n with
  | zero => intro a d; simp [wait_loop]
  | succ n ih =>
    intro a d
    simp only [wait_loop, hf a, Bool.false_eq_true, if_false]
    rw [ih (a + 1) (d * (3/2))]
    have hdelays : (List.range (n + 1)).map (fun i => d * (3/2 : ℚ)^i) =
        d :: (List.range n).map (fun i => d * (3/2 : ℚ) * (3/2)^i) := by
      rw [List.range_succ_eq_map, List.map_cons, List.map_map]
      refine congrArg₂ _ (by ring) (List.map_congr_left ?_)
      intro i _
      simp only [Function.comp_apply]
      rw [pow_succ]
      ring
    rw [hdelays]

/-- C7: in the store path the readiness waiter polls `fetch` up to 10 times
with delays `1.0 * 1.5^k`; when every poll fails the store still returns
`True` (the failed probe only selects a warning message). -/
theorem claim_C7 :
    (∀ (f : Nat → Bool) (d : ℚ), (∀ k, f k = false) →
      wait_for_indexing f 10 d =
        { found := false
          delays := (List.range 10).map (fun i => d * (3/2)^i)
          fetchCalls := 10 }) ∧
    (∀ (env : StoreEnv) (chunks : List StoredChunk),
      env.configValid = true → env.indexExists = true → env.upsertOk = true →
      store_vector_ids env chunks ≠ [] →
      store_transcription_chunks env chunks = true) := by
  constructor
  · intro f d hf
    exact wait_loop_all_fail f hf 10 0 d
  · intro env chunks hc hi hu hids
    have hne : chunks.isEmpty = false := by
      cases chunks with
      | nil => exact absurd rfl hids
      | cons a l => rfl
    simp only [store_transcription_chunks, hc, hi, hu, hne, Bool.not_true,
      Bool.false_eq_true, if_false]
    cases hid : store_vector_ids env chunks with
    | nil => exact absurd hid hids
    | cons a l => simp

/-- Witness for C7: with a `fetch` that always fails, the waiter performs
10 polls with the geometric delays and a concrete store still succeeds. -/
theorem claim_C7_witness :
    wait_for_indexing (fun _ => false) 10 1 =
      { found := false
        delays := (List.range 10).map (fun i => 1 * (3/2)^i)
        fetchCalls := 10 } ∧
    store_transcription_chunks
      { configValid := true
        indexExists := true
        embBatch := fun _ => [some [1]]
        fetchOk := fun _ _ => false
        upsertOk := true }
      [{ id := "c0", text := ['a'] }] = true :=
  ⟨claim_C7.1 _ 1 (fun _ => rfl), claim_C7.2 _ _ rfl rfl rfl (by decide)⟩

lemma text_based_loop_none (cs ov : ℤ) (words : List (List Char)) (total : ℤ)
    (hov : 0 < ov) : ∀ (fuel : Nat) (pos : ℤ) (ci : Nat), pos < total →
    text_based_loop cs ov words total fuel pos ci = none := by
  intro fuel
  induction fuel with
  | zero => intro pos ci _; rfl
  | succ fuel ih =>
    intro pos ci hpos
    have h1 : min (pos + cs) total - ov < total := by
      have := min_le_right (pos + cs) total
      omega
    simp only [text_based_loop, if_pos hpos]
    rw [if_neg (not_le.mpr h1), ih _ _ h1]
    rfl

lemma split_long_loop_none (cs ov : ℤ) (words : List (List Char)) (total : ℤ)
    (st wps : ℚ) (si : Nat) (hov : 0 < ov) :
    ∀ (fuel : Nat) (pos : ℤ) (ci : Nat), pos < total →
    split_long_loop cs ov words total st wps si fuel pos ci = none := by
  intro fuel
  induction fuel with
  | zero => intro pos ci _; rfl
  | succ fuel ih =>
    intro pos ci hpos
    have h1 : min (pos + cs) total - ov < total := by
      have := min_le_right (pos + cs) total
      omega
    simp only [split_long_loop, if_pos hpos]
    rw [if_neg (not_le.mpr h1), ih _ _ h1]
    rfl

lemma text_based_loop_some (cs ov : ℤ) (words : List (List Char)) (total : ℤ)
    (hcs : 0 < cs) (hov : ov ≤ 0) :
    ∀ (k : Nat) (pos : ℤ) (ci : Nat), (total - pos).toNat ≤ k →
    (text_based_loop cs ov words total (k + 1) pos ci).isSome = true := by
  intro k
  induction k with
  | zero =>
    intro pos ci hk
    have hpos : ¬ pos < total := by omega
    simp [text_based_loop, hpos]
  | succ k ih =>
    intro pos ci hk
    by_cases hpos : pos < total
    · have hmin : pos + 1 ≤ min (pos + cs) total := le_min (by omega) (by omega)
      rw [text_based_loop, if_pos hpos]
      by_cases hbreak : total ≤ min (pos + cs) total - ov
      · rw [if_pos hbreak]; rfl
      · rw [if_neg hbreak]
        have hrec := ih (min (pos + cs) total - ov) (ci + 1) (by omega)
        obtain ⟨l, hl⟩ := Option.isSome_iff_exists.mp hrec
        rw [hl]
        rfl
    · simp [text_based_loop, hpos]

/-- C5: with `max_chunk_size > 0`, the text-based fallback chunking loop
terminates on every non-empty transcript text iff `overlap_size ≤ 0`
(a positive overlap keeps the post-decrement position strictly below the
word count forever); the long-segment splitter has the same non-terminating
window advance; and `validate_chunking_config` accepts every positive
configuration with `overlap_size > 0`, the default configuration's
`overlap_size` being 200. -/
theorem claim_C5 :
    (∀ cfg : ChunkingConfig, 0 < cfg.max_chunk_size →
      ((∀ tr : Transcription, tr.text ≠ [] →
          ∃ fuel, (text_based_chunking fuel tr cfg).isSome = true) ↔
        cfg.overlap_size ≤ 0)) ∧
    (∀ (cs ov : ℤ) (words : List (List Char)) (total : ℤ) (st wps : ℚ)
        (si fuel : Nat) (pos : ℤ) (ci : Nat), 0 < ov → pos < total →
      split_long_loop cs ov words total st wps si fuel pos ci = none) ∧
    (∀ cfg : ChunkingConfig, 0 < cfg.max_chunk_size → 0 < cfg.min_chunk_size →
      0 < cfg.max_segment_length → 0 < cfg.overlap_size →
      (validate_chunking_config cfg).1 = true) ∧
    defaultChunkingConfig.overlap_size = 200 := by
  refine ⟨?_, ?_, ?_, rfl⟩
  · intro cfg hcs
    constructor
    · intro hall
      by_contra hov
      push_neg at hov
      obtain ⟨fuel, hfuel⟩ := hall ⟨['a'], []⟩ (by decide)
      have hwords : pySplitWs ['a'] = [['a']] := by decide
      simp only [text_based_chunking, hwords] at hfuel
      norm_num at hfuel
      rw [text_based_loop_none cfg.max_chunk_size cfg.overlap_size [['a']] 1 hov
        fuel 0 0 (by omega)] at hfuel
      exact Bool.false_ne_true hfuel
    · intro hov tr _
      by_cases hempty : tr.text.isEmpty
      · exact ⟨1, by simp [text_based_chunking, hempty]⟩
      · by_cases hzero : ((pySplitWs tr.text).length : ℤ) = 0
        · exact ⟨1, by simp [text_based_chunking, hempty, hzero]⟩
        · refine ⟨((pySplitWs tr.text).length : ℤ).toNat + 1, ?_⟩
          simp only [text_based_chunking, hempty, Bool.false_eq_true, if_false,
            hzero, if_false]
          exact text_based_loop_some _ _ _ _ hcs hov _ 0 0 (by omega)
  · intro cs ov words total st wps si fuel pos ci hov hpos
    exact split_long_loop_none cs ov words total st wps si hov fuel pos ci hpos
  · intro cfg h1 h2 h3 h4
    simp only [validate_chunking_config]
    rw [if_neg (by omega), if_neg (by omega), if_neg (by omega), if_neg (by omega)]

/-- Witness for C5: at the default configuration (overlap 200 > 0) the
termination equivalence, the splitter's divergence, and the validator's
acceptance, all at concrete inputs. -/
theorem claim_C5_witness :
    ((∀ tr : Transcription, tr.text ≠ [] →
        ∃ fuel, (text_based_chunking fuel tr defaultChunkingConfig).isSome = true) ↔
      defaultChunkingConfig.overlap_size ≤ 0) ∧
    split_long_loop 1000 200 [['a']] 1 0 1 0 5 0 0 = none ∧
    (validate_chunking_config defaultChunkingConfig).1 = true :=
  ⟨claim_C5.1 defaultChunkingConfig (by decide),
    claim_C5.2.1 1000 200 [['a']] 1 0 1 0 5 0 0 (by decide) (by decide),
    claim_C5.2.2.1 defaultChunkingConfig (by decide) (by decide) (by decide)
      (by decide)⟩

lemma split_segment_loop_wf (tpc : ℚ) (si : Nat) (htpc : 0 ≤ tpc) :
    ∀ (l : List (Nat × List Char)) (t : ℚ) (c : Chunk),
      c ∈ split_segment_loop tpc si t l →
      c.start_time ≤ c.end_time ∧ c.chunk_type = ChunkType.sentence := by
  intro l
  induction l with
  | nil => intro t c hc; exact absurd hc (List.not_mem_nil c)
  | cons p rest ih =>
    obtain ⟨i, s⟩ := p
    intro t c hc
    rw [split_segment_loop] at hc
    split at hc
    · exact ih _ c hc
    · rcases List.mem_cons.mp hc with h | h
      · subst h
        refine ⟨?_, rfl⟩
        have hnn : 0 ≤ ((pyStrip s).length : ℚ) * tpc :=
          mul_nonneg (by positivity) htpc
        simp only
        linarith
      · exact ih _ c h

lemma split_segment_wf (text : List Char) (st sp : ℚ) (si : Nat) (h : st ≤ sp) :
    ∀ c ∈ split_segment text st sp si,
      c.start_time ≤ c.end_time ∧ c.chunk_type = ChunkType.sentence := by
  intro c hc
  simp only [split_segment] at hc
  split at hc
  · exact absurd hc (List.not_mem_nil c)
  · rename_i htc
    have hpos : (0 : ℚ) < (text.length : ℚ) := by
      have : 0 < text.length := Nat.pos_of_ne_zero htc
      exact_mod_cast this
    have htpc : 0 ≤ (sp - st) / (text.length : ℚ) :=
      div_nonneg (by linarith) (le_of_lt hpos)
    exact split_segment_loop_wf _ si htpc _ _ c hc

lemma segment_fold_wf (cfg : ChunkingConfig) :
    ∀ (l : List (Nat × Segment)), (∀ p ∈ l, p.2.start ≤ p.2.stop) →
    ∀ c ∈ l.foldr
      (fun (p : Nat × Segment) acc =>
        let text := pyStrip p.2.text
        if text.isEmpty then acc
        else if (text.length : ℤ) > cfg.max_segment_length then
          split_segment text p.2.start p.2.stop p.1 ++ acc
        else
          { text := text
            start_time := p.2.start
            end_time := p.2.stop
            segment_index := p.1
            chunk_type := ChunkType.segment
            chunk_index := 0 } :: acc)
      [],
      c.start_time ≤ c.end_time ∧ c.chunk_type ≠ ChunkType.text_chunk := by
  intro l
  induction l with
  | nil => intro _ c hc; exact absurd hc (List.not_mem_nil c)
  | cons p rest ih =>
    intro hl c hc
    have hp : p.2.start ≤ p.2.stop := hl p (List.mem_cons_self _ _)
    have hrest : ∀ q ∈ rest, q.2.start ≤ q.2.stop :=
      fun q hq => hl q (List.mem_cons_of_mem _ hq)
    simp only [List.foldr_cons] at hc
    split at hc
    · exact ih hrest c hc
    · split at hc
      · rcases List.mem_append.mp hc with h | h
        · obtain ⟨h1, h2⟩ := split_segment_wf _ _ _ _ hp c h
          exact ⟨h1, by rw [h2]; exact fun hx => ChunkType.noConfusion hx⟩
        · exact ih hrest c h
      · rcases List.mem_cons.mp hc with h | h
        · subst h
          exact ⟨hp, fun hx => ChunkType.noConfusion hx⟩
        · exact ih hrest c h

lemma segment_based_chunking_wf (tr : Transcription) (cfg : ChunkingConfig)
    (hseg : ∀ s ∈ tr.segments, s.start ≤ s.stop) :
    ∀ c ∈ segment_based_chunking tr cfg,
      c.start_time ≤ c.end_time ∧ c.chunk_type ≠ ChunkType.text_chunk := by
  intro c hc
  simp only [segment_based_chunking] at hc
  split at hc
  · exact absurd hc (List.not_mem_nil c)
  · refine segment_fold_wf cfg tr.segments.enum ?_ c hc
    intro p hp
    refine hseg p.2 ?_
    rw [← List.enum_map_snd tr.segments]
    exact List.mem_map_of_mem _ hp

lemma text_based_loop_zero_times (cs ov : ℤ) (words : List (List Char))
    (total : ℤ) :
    ∀ (fuel : Nat) (pos : ℤ) (ci : Nat) (l : List Chunk),
      text_based_loop cs ov words total fuel pos ci = some l →
      ∀ c ∈ l, c.start_time = 0 ∧ c.end_time = 0 ∧
        c.chunk_type = ChunkType.text_chunk := by
  intro fuel
  induction fuel with
  | zero => intro pos ci l h; exact absurd h (by simp [text_based_loop])
  | succ fuel ih =>
    intro pos ci l h
    simp only [text_based_loop] at h
    split at h
    · split at h
      · obtain rfl := Option.some_inj.mp h
        intro c hc
        obtain rfl := List.mem_singleton.mp hc
        exact ⟨rfl, rfl, rfl⟩
      · cases hrec : text_based_loop cs ov words total fuel
            (min (pos + cs) total - ov) (ci + 1) with
        | none => rw [hrec] at h; exact absurd h (by simp)
        | some l' =>
          rw [hrec] at h
          simp only [Option.map_some'] at h
          obtain rfl := Option.some_inj.mp h
          intro c hc
          rcases List.mem_cons.mp hc with hcc | hcc
          · subst hcc; exact ⟨rfl, rfl, rfl⟩
          · exact ih _ _ _ hrec c hcc
    · obtain rfl := Option.some_inj.mp h
      intro c hc
      exact absurd hc (List.not_mem_nil c)

lemma text_based_chunking_zero_times (fuel : Nat) (tr : Transcription)
    (cfg : ChunkingConfig) (l : List Chunk)
    (h : text_based_chunking fuel tr cfg = some l) :
    ∀ c ∈ l, c.start_time = 0 ∧ c.end_time = 0 ∧
      c.chunk_type = ChunkType.text_chunk := by
  simp only [text_based_chunking] at h
  split at h
  · obtain rfl := Option.some_inj.mp h
    intro c hc
    exact absurd hc (List.not_mem_nil c)
  · split at h
    · obtain rfl := Option.some_inj.mp h
      intro c hc
      exact absurd hc (List.not_mem_nil c)
    · exact text_based_loop_zero_times _ _ _ _ _ _ _ _ h

/-- C10: for transcripts whose segments satisfy `start ≤ end`, every chunk
produced by the chunker satisfies `end_time ≥ start_time` — segment chunks
inherit their segment's times, sentence chunks get non-negative durations
proportional to character counts, and text-fallback chunks have
`start_time = end_time = 0`. -/
theorem claim_C10 : ∀ (fuel : Nat) (tr : Transcription) (cfg : ChunkingConfig)
    (chunks : List Chunk),
    chunk_transcription fuel tr cfg = some chunks →
    (∀ s ∈ tr.segments, s.start ≤ s.stop) →
    (∀ c ∈ chunks, c.start_time ≤ c.end_time) ∧
    (∀ c ∈ chunks, c.chunk_type = ChunkType.text_chunk →
      c.start_time = 0 ∧ c.end_time = 0) := by
  intro fuel tr cfg chunks h hseg
  simp only [chunk_transcription] at h
  by_cases hsb : cfg.segment_based
  · rw [if_pos hsb] at h
    by_cases hne : !(segment_based_chunking tr cfg).isEmpty
    · rw [if_pos hne] at h
      obtain rfl := Option.some_inj.mp h
      refine ⟨fun c hc => (segment_based_chunking_wf tr cfg hseg c hc).1,
        fun c hc ht => absurd ht (segment_based_chunking_wf tr cfg hseg c hc).2⟩
    · rw [if_neg hne] at h
      have hz := text_based_chunking_zero_times fuel tr cfg chunks h
      exact ⟨fun c hc => by rw [(hz c hc).1, (hz c hc).2.1],
        fun c hc _ => ⟨(hz c hc).1, (hz c hc).2.1⟩⟩
  · rw [if_neg hsb] at h
    have hz := text_based_chunking_zero_times fuel tr cfg chunks h
    exact ⟨fun c hc => by rw [(hz c hc).1, (hz c hc).2.1],
      fun c hc _ => ⟨(hz c hc).1, (hz c hc).2.1⟩⟩

/-- Witness for C10: a one-segment transcript chunks to a single segment
chunk satisfying the invariant. -/
theorem claim_C10_witness :
    (Chunk.mk ['a'] 0 1 0 ChunkType.segment 0).start_time ≤
      (Chunk.mk ['a'] 0 1 0 ChunkType.segment 0).end_time :=
  (claim_C10 1 ⟨['a'], [⟨0, 1, ['a']⟩]⟩ defaultChunkingConfig _ (by decide)
    (by decide)).1 _ (List.mem_singleton.mpr rfl)

lemma search_optimized_eq_sequential (env : SearchEnv) (tr : Transcription)
    (threshold : ℚ) (fuel : Nat) :
    search_content_matches_optimized env tr threshold fuel =
      search_content_matches env tr threshold fuel := by
  by_cases h1 : env.configValid = true
  · by_cases h2 : (pyStrip tr.text).isEmpty = true
    · simp [search_content_matches_optimized, search_content_matches, h1, h2]
    · cases h3 : chunk_transcription fuel tr defaultChunkingConfig with
      | none =>
        simp [search_content_matches_optimized, search_content_matches, h1, h2, h3]
      | some chunks =>
        by_cases h4 : (valid_chunk_texts chunks).isEmpty = true
        · simp [search_content_matches_optimized, search_content_matches,
            h1, h2, h3, h4]
        · by_cases h5 : ((env.embBatch (valid_chunk_texts chunks)).isEmpty ||
              (env.embBatch (valid_chunk_texts chunks)).all Option.isNone) = true
          · simp only [search_content_matches_optimized, search_content_matches,
              h1, h2, h3, h4, h5, Bool.not_true, Bool.false_eq_true, if_false,
              if_true]
          · by_cases h6 : env.indexSet = true
            · by_cases h7 : (valid_chunk_texts chunks).length ≤
                  (env.embBatch (valid_chunk_texts chunks)).length
              · have h5' : (env.embBatch (valid_chunk_texts chunks)).isEmpty = false := by
                  rcases Bool.or_eq_false_iff.mp (Bool.not_eq_true _ ▸ h5 : _) with ⟨ha, _⟩
                  exact ha
                simp [search_content_matches_optimized, search_content_matches,
                  h1, h2, h3, h4, h5, h5', h6, h7, seq_fold, List.foldl_map]
              · obtain ⟨h5', h5''⟩ :=
                  Bool.or_eq_false_iff.mp (Bool.not_eq_true _ ▸ h5 : _)
                simp [search_content_matches_optimized, h1, h2, h3, h4, h5', h5'',
                  h6, h7]
            · simp [search_content_matches_optimized, h1, h2, h3, h4, h5, h6]
  · simp [search_content_matches_optimized, search_content_matches, h1]

/-- C6: for every candidate transcription, caller threshold, and fixed
sequence of embedding and index responses, the optimized (parallel) search
path returns the same merged matches, average confidence, found flag, and
total match count as the sequential path. -/
theorem claim_C6 : ∀ (env : SearchEnv) (tr : Transcription) (threshold : ℚ)
    (fuel : Nat),
    (search_content_matches_optimized env tr threshold fuel).map
        (fun r => (r.matchList, r.confidence, r.found, r.total_matches)) =
      (search_content_matches env tr threshold fuel).map
        (fun r => (r.matchList, r.confidence, r.found, r.total_matches)) := by
  intro env tr threshold fuel
  rw [search_optimized_eq_sequential]

lemma process_chunk_none (env : SearchEnv) (adjT : ℚ) (t : List Char) :
    process_chunk env adjT t none = [] := rfl

lemma seq_fold_eq_filter (env : SearchEnv) (adjT : ℚ)
    (pairs : List (List Char × Option Emb)) :
    seq_fold env adjT pairs =
      seq_fold env adjT (pairs.filter (fun p => !p.2.isNone)) := by
  suffices h : ∀ (l : List (List Char × Option Emb)) (acc : List MatchRec × ℚ),
      l.foldl
        (fun acc p =>
          let here := process_chunk env adjT p.1 p.2
          (acc.1 ++ here, acc.2 + (here.map MatchRec.confidence).sum)) acc =
      (l.filter (fun p => !p.2.isNone)).foldl
        (fun acc p =>
          let here := process_chunk env adjT p.1 p.2
          (acc.1 ++ here, acc.2 + (here.map MatchRec.confidence).sum)) acc by
    exact h pairs ([], 0)
  intro l
  induction l with
  | nil => intro acc; rfl
  | cons p rest ih =>
    intro acc
    cases hp : p.2 with
    | none =>
      simp only [List.foldl_cons, List.filter_cons, hp, Option.isNone_none,
        Bool.not_true, Bool.false_eq_true, if_false, process_chunk_none,
        List.append_nil, List.map_nil, List.sum_nil, add_zero, Prod.mk.eta]
      exact ih acc
    | some e =>
      simp only [List.foldl_cons, List.filter_cons, hp, Option.isNone_some,
        Bool.not_false, if_true]
      exact ih _

/-- C4: a chunk whose embedding is absent contributes nothing (dropping the
null-embedding pairs leaves the accumulated matches and confidence
unchanged), and — once configuration, text, and chunk extraction have
succeeded — the comparison returns the structured failure
(`success = false`, empty matches) iff the embedding batch is empty or every
entry is null. -/
theorem claim_C4 :
    (∀ (env : SearchEnv) (adjT : ℚ) (pairs : List (List Char × Option Emb)),
      seq_fold env adjT pairs =
        seq_fold env adjT (pairs.filter (fun p => !p.2.isNone))) ∧
    (∀ (env : SearchEnv) (tr : Transcription) (t : ℚ) (fuel : Nat)
        (chunks : List Chunk) (r : SearchResult),
      env.configValid = true →
      (pyStrip tr.text).isEmpty = false →
      chunk_transcription fuel tr defaultChunkingConfig = some chunks →
      (valid_chunk_texts chunks).isEmpty = false →
      search_content_matches env tr t fuel = some r →
      ((r.success = false ∧ r.matchList = []) ↔
        (env.embBatch (valid_chunk_texts chunks) = [] ∨
          ∀ e ∈ env.embBatch (valid_chunk_texts chunks), e = none))) := by
  constructor
  · exact seq_fold_eq_filter
  · intro env tr t fuel chunks r hc hstrip hchunk htexts hr
    simp only [search_content_matches, hc, hstrip, hchunk, htexts, Bool.not_true,
      Bool.false_eq_true, if_false] at hr
    by_cases hb : ((env.embBatch (valid_chunk_texts chunks)).isEmpty ||
        (env.embBatch (valid_chunk_texts chunks)).all Option.isNone) = true
    · rw [if_pos hb] at hr
      obtain rfl := (Option.some_inj.mp hr).symm
      constructor
      · intro _
        rcases Bool.or_eq_true_iff.mp hb with h | h
        · exact Or.inl (List.isEmpty_iff.mp h)
        · refine Or.inr ?_
          intro e he
          exact Option.isNone_iff_eq_none.mp (List.all_eq_true.mp h e he)
      · intro _
        exact ⟨rfl, rfl⟩
    · rw [if_neg hb] at hr
      obtain rfl := (Option.some_inj.mp hr).symm
      constructor
      · intro hfail
        exact absurd hfail.1 (by simp)
      · intro hrhs
        exfalso
        apply hb
        rcases hrhs with h | h
        · exact Bool.or_eq_true_iff.mpr (Or.inl (List.isEmpty_iff.mpr h))
        · refine Bool.or_eq_true_iff.mpr (Or.inr (List.all_eq_true.mpr ?_))
          intro e he
          exact Option.isNone_iff_eq_none.mpr (h e he)

/-- Witness for C4: with a one-chunk transcript and a batch response
`[None]`, the comparison fails with empty matches, in accordance with the
right-hand side of the equivalence. -/
theorem claim_C4_witness :
    ((failure_result ("Failed to generate batch embeddings")).success = false ∧
      (failure_result ("Failed to generate batch embeddings")).matchList = []) ↔
    ((SearchEnv.mk true true true (fun _ => [none]) (fun _ => [])).embBatch
        (valid_chunk_texts [Chunk.mk ['a'] 0 1 0 ChunkType.segment 0]) = [] ∨
      ∀ e ∈ (SearchEnv.mk true true true (fun _ => [none])
          (fun _ => [])).embBatch
            (valid_chunk_texts [Chunk.mk ['a'] 0 1 0 ChunkType.segment 0]),
        e = none) :=
  claim_C4.2 (SearchEnv.mk true true true (fun _ => [none]) (fun _ => []))
    ⟨['a'], [⟨0, 1, ['a']⟩]⟩ 1 1 [Chunk.mk ['a'] 0 1 0 ChunkType.segment 0]
    (failure_result ("Failed to generate batch embeddings"))
    rfl (by decide) (by decide) (by decide) (by decide)

lemma seq_fold_conf_lb (env : SearchEnv) (adjT : ℚ)
    (pairs : List (List Char × Option Emb)) :
    ∀ x ∈ (seq_fold env adjT pairs).1, adjT ≤ x.confidence := by
  suffices h : ∀ (l : List (List Char × Option Emb)) (acc : List MatchRec × ℚ),
      (∀ x ∈ acc.1, adjT ≤ x.confidence) →
      ∀ x ∈ (l.foldl
        (fun acc p =>
          let here := process_chunk env adjT p.1 p.2
          (acc.1 ++ here, acc.2 + (here.map MatchRec.confidence).sum)) acc).1,
        adjT ≤ x.confidence by
    exact h pairs ([], 0) (fun x hx => absurd hx (List.not_mem_nil x))
  intro l
  induction l with
  | nil => intro acc hacc x hx; exact hacc x hx
  | cons p rest ih =>
    intro acc hacc x hx
    simp only [List.foldl_cons] at hx
    refine ih _ ?_ x hx
    intro y hy
    rcases List.mem_append.mp hy with h | h
    · exact hacc y h
    · obtain ⟨rm, _, hscore, _, hyr⟩ := mem_process_chunk h
      rw [hyr]
      exact hscore

lemma merge_loop_conf_lb (q : ℚ) :
    ∀ (l : List MatchRec) (c : MatchRec), q ≤ c.confidence →
      (∀ m ∈ l, q ≤ m.confidence) →
      ∀ x ∈ merge_loop c l, q ≤ x.confidence := by
  intro l
  induction l with
  | nil =>
    intro c hc _ x hx
    obtain rfl := List.mem_singleton.mp hx
    exact hc
  | cons m rest ih =>
    intro c hc hl x hx
    rw [merge_loop] at hx
    split at hx
    · exact ih _ (le_trans hc (le_max_left _ _))
        (fun y hy => hl y (List.mem_cons_of_mem _ hy)) x hx
    · rcases List.mem_cons.mp hx with h | h
      · subst h; exact hc
      · exact ih m (hl m (List.mem_cons_self _ _))
          (fun y hy => hl y (List.mem_cons_of_mem _ hy)) x h

lemma merge_conf_lb (q : ℚ) (ms : List MatchRec)
    (h : ∀ m ∈ ms, q ≤ m.confidence) :
    ∀ x ∈ merge_overlapping_matches ms, q ≤ x.confidence := by
  intro x hx
  simp only [merge_overlapping_matches] at hx
  split at hx
  · exact absurd hx (List.not_mem_nil x)
  · split at hx
    · exact absurd hx (List.not_mem_nil x)
    · rename_i m rest heq
      have hmem : ∀ y ∈ m :: rest, q ≤ y.confidence := fun y hy =>
        h y ((List.perm_insertionSort _ ms).mem_iff.mp (heq ▸ hy))
      exact merge_loop_conf_lb q rest m (hmem m (List.mem_cons_self _ _))
        (fun y hy => hmem y (List.mem_cons_of_mem _ hy)) x hx

theorem claim_C1 : ∀ (env : SearchEnv) (tr : Transcription) (threshold : ℚ)
    (fuel : Nat) (r : SearchResult),
    search_content_matches env tr threshold fuel = some r →
    r.success = true →
    r.adjThreshold = adjusted_threshold (pyStrip tr.text).length threshold ∧
    (∀ m ∈ r.matchList, r.adjThreshold ≤ m.confidence) ∧
    ((pyStrip tr.text).length < 100 → r.adjThreshold = 1/2) ∧
    (500 < (pyStrip tr.text).length → r.adjThreshold = 3/10) ∧
    (100 ≤ (pyStrip tr.text).length → (pyStrip tr.text).length ≤ 500 →
      r.adjThreshold = threshold) := by
  intro env tr threshold fuel r hr hsucc
  by_cases h1 : env.configValid = true
  · by_cases h2 : (pyStrip tr.text).isEmpty = true
    · simp only [search_content_matches, h1, h2, Bool.not_true,
        Bool.false_eq_true, if_false, if_true, Option.some.injEq] at hr
      subst hr
      simp [failure_result] at hsucc
    · cases h3 : chunk_transcription fuel tr defaultChunkingConfig with
      | none =>
        simp only [search_content_matches, h1, h2, h3, Bool.not_true,
          Bool.false_eq_true, if_false] at hr
        exact absurd hr (by simp)
      | some chunks =>
        by_cases h4 : (valid_chunk_texts chunks).isEmpty = true
        · simp only [search_content_matches, h1, h2, h3, h4, Bool.not_true,
            Bool.false_eq_true, if_false, if_true, Option.some.injEq] at hr
          subst hr
          simp [failure_result] at hsucc
        · by_cases h5 : ((env.embBatch (valid_chunk_texts chunks)).isEmpty ||
              (env.embBatch (valid_chunk_texts chunks)).all Option.isNone) = true
          · simp only [search_content_matches, h1, h2, h3, h4, h5, Bool.not_true,
              Bool.false_eq_true, if_false, if_true, Option.some.injEq] at hr
            subst hr
            simp [failure_result] at hsucc
          · simp only [search_content_matches, h1, h2, h3, h4, h5, Bool.not_true,
              Bool.false_eq_true, if_false, if_true, Option.some.injEq] at hr
            subst hr
            refine ⟨rfl, ?_, ?_, ?_, ?_⟩
            · intro m hm
              exact merge_conf_lb _ _
                (seq_fold_conf_lb env
                  (adjusted_threshold (pyStrip tr.text).length threshold) _) m hm
            · intro h100
              simp only [adjusted_threshold, if_pos h100]
            · intro h500
              simp only [adjusted_threshold]
              rw [if_neg (by omega), if_pos (by omega)]
            · intro hlo hhi
              simp only [adjusted_threshold]
              rw [if_neg (by omega), if_neg (by omega)]
  · rw [Bool.not_eq_true] at h1
    simp only [search_content_matches, h1, Bool.not_false, if_true,
      Option.some.injEq] at hr
    subst hr
    simp [failure_result] at hsucc

set_option maxRecDepth 10000 in
theorem claim_C1_witness :
    (SearchResult.mk true none [] 0 false 0 1).adjThreshold =
        adjusted_threshold (pyStrip (List.replicate 100 'a')).length 1 ∧
    (∀ m ∈ (SearchResult.mk true none [] 0 false 0 1).matchList,
      (SearchResult.mk true none [] 0 false 0 1).adjThreshold ≤ m.confidence) ∧
    ((pyStrip (List.replicate 100 'a')).length < 100 →
      (SearchResult.mk true none [] 0 false 0 1).adjThreshold = 1/2) ∧
    (500 < (pyStrip (List.replicate 100 'a')).length →
      (SearchResult.mk true none [] 0 false 0 1).adjThreshold = 3/10) ∧
    (100 ≤ (pyStrip (List.replicate 100 'a')).length →
      (pyStrip (List.replicate 100 'a')).length ≤ 500 →
      (SearchResult.mk true none [] 0 false 0 1).adjThreshold = 1) :=
  claim_C1 (SearchEnv.mk true true true (fun _ => [some [1]]) (fun _ => []))
    ⟨List.replicate 100 'a', [⟨0, 1, List.replicate 100 'a'⟩]⟩ 1 1
    (SearchResult.mk true none [] 0 false 0 1) (by decide) rfl

set_option maxRecDepth 10000 in
theorem claim_C1_counterexample :
    ∃ chunks r,
      chunk_transcription 1
          ⟨List.replicate 600 'a', [⟨0, 1, List.replicate 40 'b'⟩]⟩
          defaultChunkingConfig = some chunks ∧
      (valid_chunk_texts chunks).map List.length = [40] ∧
      search_content_matches
          (SearchEnv.mk true true true (fun _ => [some [1]])
            (fun _ => [⟨2/5, ⟨List.replicate 40 'b', 0, 1, 0⟩⟩]))
          ⟨List.replicate 600 'a', [⟨0, 1, List.replicate 40 'b'⟩]⟩
          (19/20) 1 = some r ∧
      r.success = true ∧ r.matchList ≠ [] ∧
      ∀ m ∈ r.matchList, m.confidence < adjusted_threshold 40 (19/20) := by
  have hchunks : chunk_transcription 1
      ⟨List.replicate 600 'a', [⟨0, 1, List.replicate 40 'b'⟩]⟩
      defaultChunkingConfig =
      some [Chunk.mk (List.replicate 40 'b') 0 1 0 ChunkType.segment 0] := by
    decide
  have htexts : valid_chunk_texts
      [Chunk.mk (List.replicate 40 'b') 0 1 0 ChunkType.segment 0] =
      [List.replicate 40 'b'] := by decide
  have hstrip : (pyStrip (List.replicate 600 'a')).isEmpty = false := by decide
  have hlen600 : (pyStrip (List.replicate 600 'a')).length = 600 := by decide
  have hadj : adjusted_threshold 600 (19/20) = 3/10 := by
    norm_num [adjusted_threshold]
  have hws : wordSet (List.replicate 40 'b') = {List.replicate 40 'b'} := by
    decide
  have hgate : check_content_overlap (List.replicate 40 'b')
      (List.replicate 40 'b') = true := by
    simp only [check_content_overlap, hws, Finset.inter_self,
      Finset.card_singleton]
    rw [if_neg (by norm_num)]
    simp only [decide_eq_true_eq, Nat.cast_one, div_one]
    norm_num [min_overlap_req]
  have hpc : process_chunk
      (SearchEnv.mk true true true (fun _ => [some [1]])
        (fun _ => [⟨2/5, ⟨List.replicate 40 'b', 0, 1, 0⟩⟩]))
      (3/10) (List.replicate 40 'b') (some [1]) =
      [MatchRec.mk 0 1 (List.replicate 40 'b') (2/5) 0] := by
    simp only [process_chunk, embTruthy, search_with_embedding,
      List.isEmpty_cons, Bool.not_false, Bool.false_eq_true, if_false,
      Bool.not_true, List.filter_cons, List.filter_nil,
      List.filterMap_cons, List.filterMap_nil, matchOfRecord]
    rw [decide_eq_true (by norm_num : ((3 : ℚ)/10 ≤ 2/5))]
    simp only [Option.getD_some, List.isEmpty_cons, Bool.false_eq_true,
      if_false, eq_self_iff_true, if_true, List.filterMap_cons,
      List.filterMap_nil, hgate]
  have hsf : seq_fold
      (SearchEnv.mk true true true (fun _ => [some [1]])
        (fun _ => [⟨2/5, ⟨List.replicate 40 'b', 0, 1, 0⟩⟩]))
      (3/10) [(List.replicate 40 'b', some [1])] =
      ([MatchRec.mk 0 1 (List.replicate 40 'b') (2/5) 0], 0 + (2/5 + 0)) := by
    simp only [seq_fold, List.foldl_cons, List.foldl_nil, hpc, List.map_cons,
      List.map_nil, List.sum_cons, List.sum_nil, List.nil_append]
  have hmerge : merge_overlapping_matches
      [MatchRec.mk 0 1 (List.replicate 40 'b') (2/5) 0] =
      [MatchRec.mk 0 1 (List.replicate 40 'b') (2/5) 0] := by
    simp only [merge_overlapping_matches, List.isEmpty_cons,
      Bool.false_eq_true, if_false, List.insertionSort, List.orderedInsert,
      merge_loop]
  refine ⟨[Chunk.mk (List.replicate 40 'b') 0 1 0 ChunkType.segment 0],
    SearchResult.mk true none
      [MatchRec.mk 0 1 (List.replicate 40 'b') (2/5) 0] (2/5) true 1 (3/10),
    hchunks, by rw [htexts]; rfl, ?_, rfl, by simp, ?_⟩
  · simp only [search_content_matches, hstrip, Bool.false_eq_true, if_false,
      hchunks, htexts, List.isEmpty_cons, List.all_cons, List.all_nil,
      Option.isNone_some, Bool.and_true, Bool.or_self, Bool.or_false,
      Bool.false_or, List.zip_cons_cons, List.zip_nil_right, hlen600, hadj,
      hsf, hmerge]
    norm_num
  · intro m hm
    obtain rfl := List.mem_singleton.mp hm
    rw [show adjusted_threshold 40 (19/20) = 1/2 by norm_num [adjusted_threshold]]
    norm_num
